import Mathlib

/-!
Verification of SMPyBandits core algorithms.

Part 1 embeds `src/Environment/CollisionModels.py`: the multi-player collision
resolution policies `onlyUniqUserGetsReward`, `rewardIsSharedUniformly` and
`closerUserGetsReward`.  The numpy arrays `rewards`, `pulls`, `collisions` become
fields of an explicit state record, the per-player callbacks (`getReward`,
`handleCollision`) become an event trace, and the two sources of randomness
(`np.random.choice` among colliding players, and the tie-break among players at
equal minimal distance) become oracle parameters `chooser` / `tieBreak`.
Player policies are opaque in the source, so only the callback invocations are
recorded.  Float reward values are idealized as rationals; no arithmetic is
performed on them by the collision engine, they are only drawn and stored.

Part 2 embeds the change-point detectors of
`src/notebooks/Experiments_of_statistical_tests_for_piecewise_stationary_bandit.py`
(`Monitored`, `CUSUM`, `PHT`, `GaussianGLR`, `BernoulliGLR` and their threshold
functions) over real-valued observation streams.
-/

namespace CollisionModels

/-- A callback delivered to a player by the collision engine: either
`getReward(arm, reward)` or `handleCollision(arm)`. -/
inductive PEvent (P A : ℕ) where
  | getReward : Fin P → Fin A → ℚ → PEvent P A
  | handleCollision : Fin P → Fin A → PEvent P A
deriving DecidableEq

/-- The mutable round state of the engine: the numpy arrays `rewards` (one cell
per player), `pulls` (players × arms) and `collisions` (one cell per arm),
plus the trace of callbacks issued so far. -/
structure MPState (P A : ℕ) where
  rewards : Fin P → ℚ
  pulls : Fin P → Fin A → ℕ
  collisions : Fin A → ℕ
  events : List (PEvent P A)

/-- The all-zero round state with an empty callback trace. -/
def initState (P A : ℕ) : MPState P A :=
  { rewards := fun _ => 0, pulls := fun _ _ => 0, collisions := fun _ => 0, events := [] }

variable {P A : ℕ}

/-- The players who chose arm `a` this round, in increasing index order:
`np.nonzero(choices == arm)[0]`. -/
def occupants (choices : Fin P → Fin A) (a : Fin A) : List (Fin P) :=
  (List.finRange P).filter fun i => decide (choices i = a)

/-- Number of players whose choice equals `a`: `np.sum(choices == arm)`. -/
def occupancy (choices : Fin P → Fin A) (a : Fin A) : ℕ :=
  (occupants choices a).length

/-- The source's `nbCollisions[arm] = np.sum(choices == arm) - 1` (a Python int,
hence `-1` on an unoccupied arm). -/
def nbCollisions (choices : Fin P → Fin A) (a : Fin A) : ℤ :=
  (occupancy choices a : ℤ) - 1

/-- The collision notification of `CollisionModels.py`: call
`player.handleCollision(arm)` when the player supports it, else the degraded
substitute `player.getReward(arm, 0)`. -/
def collideEvent (hasCH : Fin P → Bool) (j : Fin P) (a : Fin A) : PEvent P A :=
  if hasCH j then PEvent.handleCollision j a else PEvent.getReward j a 0

/-- One iteration of the player loop of `onlyUniqUserGetsReward`: if
`nbCollisions[choices[i]] < 1` the player draws the arm (`rewards[i]` is set,
`getReward` is called, `pulls[i, choices[i]]` increments), otherwise
`collisions[choices[i]] += 1` and the player gets the collision notification. -/
def uniqStep (choices : Fin P → Fin A) (draw : Fin A → ℚ) (hasCH : Fin P → Bool)
    (s : MPState P A) (i : Fin P) : MPState P A :=
  if nbCollisions choices (choices i) < 1 then
    { s with
      rewards := Function.update s.rewards i (draw (choices i)),
      pulls := fun j b =>
        if j = i ∧ b = choices i then s.pulls j b + 1 else s.pulls j b,
      events := s.events ++ [PEvent.getReward i (choices i) (draw (choices i))] }
  else
    { s with
      collisions := fun b =>
        if b = choices i then s.collisions b + 1 else s.collisions b,
      events := s.events ++ [collideEvent hasCH i (choices i)] }

/-- `onlyUniqUserGetsReward(t, arms, players, choices, rewards, pulls, collisions)`:
the player loop, iterated over all players in index order.  `arms[a].draw(t)` is
the opaque reward source `draw a`. -/
def onlyUniqUserGetsReward (choices : Fin P → Fin A) (draw : Fin A → ℚ)
    (hasCH : Fin P → Bool) (s0 : MPState P A) : MPState P A :=
  (List.finRange P).foldl (uniqStep choices draw hasCH) s0

/-- One iteration of the arm loop shared by `rewardIsSharedUniformly` and
`closerUserGetsReward` (the two bodies are identical except for how the winning
occupant is selected, abstracted here as `winner`): on an occupied arm,
`collisions[arm] += occupancy - 1`, the winner draws the arm and its pull count
increments, and every other occupant receives the collision notification in
index order. -/
def resolveArmStep (choices : Fin P → Fin A) (draw : Fin A → ℚ) (hasCH : Fin P → Bool)
    (winner : Fin A → Fin P) (s : MPState P A) (a : Fin A) : MPState P A :=
  if 0 < (occupants choices a).length then
    { rewards := Function.update s.rewards (winner a) (draw a),
      pulls := fun j b =>
        if j = winner a ∧ b = a then s.pulls j b + 1 else s.pulls j b,
      collisions := fun b =>
        if b = a then s.collisions b + ((occupants choices a).length - 1)
        else s.collisions b,
      events := s.events ++ [PEvent.getReward (winner a) a (draw a)] ++
        ((occupants choices a).filter fun j => decide (j ≠ winner a)).map
          fun j => collideEvent hasCH j a }
  else s

/-- The arm loop, iterated over all arms in index order. -/
def armFold (choices : Fin P → Fin A) (draw : Fin A → ℚ) (hasCH : Fin P → Bool)
    (winner : Fin A → Fin P) (s0 : MPState P A) : MPState P A :=
  (List.finRange A).foldl (resolveArmStep choices draw hasCH winner) s0

/-- `rewardIsSharedUniformly`: on each occupied arm one occupant is chosen
uniformly at random (`np.random.choice(players_who_chose_it)`); the random
choice is modelled by the oracle `chooser`, which theorems constrain to return
a member of the given list. -/
def rewardIsSharedUniformly (choices : Fin P → Fin A) (draw : Fin A → ℚ)
    (hasCH : Fin P → Bool) (chooser : Fin A → List (Fin P) → Fin P)
    (s0 : MPState P A) : MPState P A :=
  armFold choices draw hasCH (fun a => chooser a (occupants choices a)) s0

/-- Minimum of a list of rationals, `np.min` (0 on the empty list, which the
source never queries). -/
def qminList : List ℚ → ℚ
  | [] => 0
  | x :: xs => xs.foldl min x

/-- The occupant selected by `closerUserGetsReward` on arm `a`:
`smaller_distance = np.min(distancesChosen)`; when exactly one occupant attains
it, the first (and only) such occupant (`np.argmin` returns the first minimal
index); otherwise one of the tied occupants picked at random, modelled by the
oracle `tieBreak`. -/
def closerWinner (choices : Fin P → Fin A) (distances : Fin P → ℚ)
    (tieBreak : Fin A → List (Fin P) → Fin P) (a : Fin A) : Fin P :=
  let who := occupants choices a
  let dmin := qminList (who.map distances)
  let ties := who.filter fun j => decide (distances j = dmin)
  if h : ties.length = 1 then
    ties.head (List.length_pos.mp (by omega))
  else
    tieBreak a ties

/-- `closerUserGetsReward` with an explicit `distances` array: identical to
`rewardIsSharedUniformly` except the winning occupant is the one at minimal
distance. -/
def closerUserGetsReward (choices : Fin P → Fin A) (draw : Fin A → ℚ)
    (hasCH : Fin P → Bool) (distances : Fin P → ℚ)
    (tieBreak : Fin A → List (Fin P) → Fin P) (s0 : MPState P A) : MPState P A :=
  armFold choices draw hasCH (closerWinner choices distances tieBreak) s0

/-- The single callback issued while the player loop of `onlyUniqUserGetsReward`
processes player `i`. -/
def uniqEvent (choices : Fin P → Fin A) (draw : Fin A → ℚ) (hasCH : Fin P → Bool)
    (i : Fin P) : PEvent P A :=
  if nbCollisions choices (choices i) < 1 then
    PEvent.getReward i (choices i) (draw (choices i))
  else collideEvent hasCH i (choices i)

/-- The callbacks issued while the arm loop of `rewardIsSharedUniformly` /
`closerUserGetsReward` processes arm `a`: on an occupied arm, `getReward` for
the winner followed by collision notifications for the other occupants in index
order; nothing on an unoccupied arm. -/
def armEvents (choices : Fin P → Fin A) (draw : Fin A → ℚ) (hasCH : Fin P → Bool)
    (winner : Fin A → Fin P) (a : Fin A) : List (PEvent P A) :=
  if 0 < (occupants choices a).length then
    PEvent.getReward (winner a) a (draw a) ::
      ((occupants choices a).filter fun j => decide (j ≠ winner a)).map
        (fun j => collideEvent hasCH j a)
  else []


end CollisionModels

namespace StatTests

/-- Number of arms in the broader experiment, `NB_ARMS = 1` in the notebook. -/
def NB_ARMS : ℕ := 1

/-- Default window size of the `Monitored` test. -/
def WINDOW_SIZE : ℕ := 80

/-- Default precision of the CUSUM / PHT tests, `EPSILON = 0.5`. -/
def EPSILON : ℚ := 1/2

/-- Default minimum number of observations between change points, `M = 100`. -/
def MIN_NUMBER_OF_OBSERVATION_BETWEEN_CHANGE_POINT : ℕ := 100

/-- Default assumed maximum number of change points. -/
def MAX_NB_RANDOM_EVENTS : ℕ := 1

/-- `np.mean` of a list (0 on the empty list; every use on an empty slice is
either unreachable or modelled explicitly where the float semantics differ). -/
noncomputable def listMean (l : List ℝ) : ℝ := l.sum / l.length

/-- Body of `Monitored` acting on `data = all_data[:t]` and
`horizon = len(all_data)`: return `False` when fewer than `window_size` samples
are available, else compare `|sum(first half) - sum(second half)|` of the last
`window_size` samples against `threshold_b`, defaulting to
`sqrt(window_size/2 * log(2 * NB_ARMS * horizon^2))`.  The halves split at
`window_size // 2` (integer division), while the threshold uses the true
division `window_size / 2`, exactly as in the source. -/
def MonitoredCore (data : List ℝ) (horizon : ℕ) (window_size : ℕ)
    (threshold_b : Option ℝ) : Prop :=
  if data.length < window_size then False
  else
    |((data.drop (data.length - window_size)).take (window_size / 2)).sum -
        ((data.drop (data.length - window_size)).drop (window_size / 2)).sum| >
      threshold_b.getD
        (Real.sqrt ((window_size : ℝ) / 2 *
          Real.log (2 * (NB_ARMS : ℝ) * (horizon : ℝ) ^ 2)))

/-- `Monitored(all_data, t, window_size, threshold_b)`: the source first forms
`data = all_data[:t]` and `horizon = len(all_data)`. -/
def Monitored (all_data : List ℝ) (t : ℕ) (window_size : ℕ := WINDOW_SIZE)
    (threshold_b : Option ℝ := none) : Prop :=
  MonitoredCore (all_data.take t) all_data.length window_size threshold_b

/-- `compute_h__CUSUM(horizon, verbose, M, max_nb_random_events, nbArms, epsilon)`
from the notebook, with the unused `verbose` parameter dropped (the source never
reads it) and the unused local `K = int(max(1, nbArms))` not bound (the source
computes it but it does not occur in any formula).  Float arithmetic is
idealized over the rationals inside the logarithms.  When `C1 = min(C1_minus,
C1_plus)` is zero the source substitutes 1 before dividing. -/
noncomputable def compute_h__CUSUM (horizon : ℕ)
    (M : ℕ := MIN_NUMBER_OF_OBSERVATION_BETWEEN_CHANGE_POINT)
    (max_nb_random_events : ℕ := MAX_NB_RANDOM_EVENTS)
    (nbArms : ℕ := 1) (epsilon : ℚ := EPSILON) : ℝ :=
  let T : ℕ := max 1 horizon
  let UpsilonT : ℕ := max 1 max_nb_random_events
  let C1_minus : ℝ := Real.log
    (((4 * epsilon / (1 - epsilon) ^ 2) * (M.choose ⌊2 * epsilon * (M : ℚ)⌋₊) *
        (2 * epsilon) ^ M + 1 : ℚ) : ℝ)
  let C1_plus : ℝ := Real.log
    (((4 * epsilon / (1 + epsilon) ^ 2) * (M.choose ⌈2 * epsilon * (M : ℚ)⌉₊) *
        (2 * epsilon) ^ M + 1 : ℚ) : ℝ)
  let C1 : ℝ := min C1_minus C1_plus
  (1 / (if C1 = 0 then 1 else C1)) * Real.log ((T : ℝ) / (UpsilonT : ℝ))

/-- The running pair `(g^+, g^-)` of the CUSUM loop after the iterations for
data indices `0, ..., k-1` have run: indices `k ≤ M` are skipped (`continue`),
later indices apply
`g^+ := max(0, g^+ + (u0hat - y_k - epsilon))`,
`g^- := max(0, g^- + (y_k - u0hat - epsilon))`. -/
noncomputable def cusumG (u0hat epsilon : ℝ) (M : ℕ) (data : List ℝ) : ℕ → ℝ × ℝ
  | 0 => (0, 0)
  | k + 1 =>
    if k ≤ M then cusumG u0hat epsilon M data k
    else
      (max 0 ((cusumG u0hat epsilon M data k).1 + (u0hat - data.getD k 0 - epsilon)),
       max 0 ((cusumG u0hat epsilon M data k).2 + (data.getD k 0 - u0hat - epsilon)))

/-- Body of `CUSUM` on `data = all_data[:t]`, `horizon = len(all_data)`.  The
loop returns `True` at the first index `k > M` where `max(g^+, g^-) ≥ h`, which
is equivalent to the existence of such an index.  When no threshold is passed
the source computes `compute_h__CUSUM(horizon, M, 1, epsilon=epsilon)`: the
caller's `M` is bound positionally to the unused `verbose` parameter, so the
threshold is actually computed with `M = 1` (and `max_nb_random_events = 1`,
`nbArms = 1`). -/
noncomputable def CUSUMCore (data : List ℝ) (horizon : ℕ) (epsilon : ℚ) (M : ℕ)
    (threshold_h : Option ℝ) : Prop :=
  ∃ k < data.length, ¬ k ≤ M ∧
    max (cusumG (listMean (data.take M)) (epsilon : ℝ) M data (k + 1)).1
        (cusumG (listMean (data.take M)) (epsilon : ℝ) M data (k + 1)).2 ≥
      threshold_h.getD (compute_h__CUSUM horizon 1 1 1 epsilon)

/-- `CUSUM(all_data, t, epsilon, M, threshold_h)`. -/
noncomputable def CUSUM (all_data : List ℝ) (t : ℕ) (epsilon : ℚ := EPSILON)
    (M : ℕ := MIN_NUMBER_OF_OBSERVATION_BETWEEN_CHANGE_POINT)
    (threshold_h : Option ℝ := none) : Prop :=
  CUSUMCore (all_data.take t) all_data.length epsilon M threshold_h

/-- The running pair `(g^+, g^-)` of the PHT loop after the iterations for data
indices `0, ..., k-1` have run.  At index `k ≥ 1` the reference mean is the
running mean `y_hat_k = mean(data[:k])` and the update is as in CUSUM.  At
index `k = 0` the source evaluates `np.mean(data[:0])`, which is NaN; both
`gp + sp` and `gm + sm` are then NaN and CPython's `max(0, nan)` returns its
first argument, so the iteration leaves both statistics at 0 — modelled here by
the explicit `k = 0` branch. -/
noncomputable def phtG (epsilon : ℝ) (data : List ℝ) : ℕ → ℝ × ℝ
  | 0 => (0, 0)
  | k + 1 =>
    if k = 0 then (0, 0)
    else
      (max 0 ((phtG epsilon data k).1 +
        (listMean (data.take k) - data.getD k 0 - epsilon)),
       max 0 ((phtG epsilon data k).2 +
        (data.getD k 0 - listMean (data.take k) - epsilon)))

/-- Body of `PHT` on `data = all_data[:t]`, `horizon = len(all_data)`: the loop
tests every index `k` (there is no `continue`), returning `True` at the first
`k` with `max(g^+, g^-) ≥ h`.  The default threshold is computed exactly as in
`CUSUM` (same positional-argument binding, so with `M = 1`). -/
noncomputable def PHTCore (data : List ℝ) (horizon : ℕ) (epsilon : ℚ) (M : ℕ)
    (threshold_h : Option ℝ) : Prop :=
  ∃ k < data.length,
    max (phtG (epsilon : ℝ) data (k + 1)).1 (phtG (epsilon : ℝ) data (k + 1)).2 ≥
      threshold_h.getD (compute_h__CUSUM horizon 1 1 1 epsilon)

/-- `PHT(all_data, t, epsilon, M, threshold_h)` (`M` only feeds the threshold
call, where it is bound to `verbose` and ignored). -/
noncomputable def PHT (all_data : List ℝ) (t : ℕ) (epsilon : ℚ := EPSILON)
    (M : ℕ := MIN_NUMBER_OF_OBSERVATION_BETWEEN_CHANGE_POINT)
    (threshold_h : Option ℝ := none) : Prop :=
  PHTCore (all_data.take t) all_data.length epsilon M threshold_h

/-- `compute_c__GLR(t0, t, horizon)`:
`c = (1 + 1/(t-t0+1)) * 2 * log(2*(t-t0)*sqrt(t-t0+2) / delta)` with
`delta = 1/max(1, horizon)`.  When `t = t0` the float computation is
`np.log(0) = -inf`, the raw `c` is `-inf`, and the guard
`if c < 0 and np.isinf(c): c = +inf` fires, modelled by the value `⊤ : EReal`;
for `t ≠ t0` the ideal real value is finite and nonnegative, so the guard
never fires. -/
noncomputable def compute_c__GLR (t0 t horizon : ℕ) : EReal :=
  let T : ℕ := max 1 horizon
  let t_m_t0 : ℕ := ((t : ℤ) - (t0 : ℤ)).natAbs
  if t_m_t0 = 0 then ⊤
  else (((1 + 1 / ((t_m_t0 : ℝ) + 1)) * 2 *
    Real.log ((2 * (t_m_t0 : ℝ) * Real.sqrt ((t_m_t0 : ℝ) + 2)) / (1 / (T : ℝ))) : ℝ) : EReal)

/-- `klGauss(x, y, sig2x=0.25) = (x - y)^2 / (2 sig2x)`. -/
noncomputable def klGauss (x y : ℝ) (sig2x : ℝ := 1/4) : ℝ := (x - y) ^ 2 / (2 * sig2x)

/-- The clamp constant `eps = 1e-6` of the Bernoulli KL. -/
noncomputable def bernoulliEps : ℝ := 1 / 1000000

/-- `klBern(x, y)`: both arguments are clamped to `[eps, 1 - eps]` before
computing `x log(x/y) + (1-x) log((1-x)/(1-y))`. -/
noncomputable def klBern (x y : ℝ) : ℝ :=
  (min (max x bernoulliEps) (1 - bernoulliEps)) *
      Real.log ((min (max x bernoulliEps) (1 - bernoulliEps)) /
        (min (max y bernoulliEps) (1 - bernoulliEps))) +
    (1 - min (max x bernoulliEps) (1 - bernoulliEps)) *
      Real.log ((1 - min (max x bernoulliEps) (1 - bernoulliEps)) /
        (1 - min (max y bernoulliEps) (1 - bernoulliEps)))

/-- `mu(a, b) = np.mean(data[a : b+1])` of the GLR detectors (numpy slicing
silently truncates at the end of the list). -/
noncomputable def glrMean (data : List ℝ) (a b : ℕ) : ℝ := listMean ((data.drop a).take (b + 1 - a))

/-- Body of `GaussianGLR` on `data = all_data[:t]`: scan the split points
`s = 0, ..., t-2` (`range(t0, t-1)` with `t0 = 0`) and return `True` at the
first `s` whose weighted KL statistic reaches the threshold, which defaults to
`compute_c__GLR(0, t, horizon)` (finite real whenever the scan is nonempty). -/
noncomputable def GaussianGLRCore (data : List ℝ) (t horizon : ℕ)
    (threshold_h : Option ℝ) : Prop :=
  ∃ s, s < t - 1 ∧
    ((s : ℝ) + 1) * ((t : ℝ) - (s : ℝ)) / ((t : ℝ) + 1) *
        klGauss (glrMean data (s + 1) t) (glrMean data 0 s) ≥
      threshold_h.getD (compute_c__GLR 0 t horizon).toReal

/-- `GaussianGLR(all_data, t, threshold_h)`. -/
noncomputable def GaussianGLR (all_data : List ℝ) (t : ℕ)
    (threshold_h : Option ℝ := none) : Prop :=
  GaussianGLRCore (all_data.take t) t all_data.length threshold_h

/-- Body of `BernoulliGLR` on `data = all_data[:t]`: as `GaussianGLRCore` with
the clamped Bernoulli KL. -/
noncomputable def BernoulliGLRCore (data : List ℝ) (t horizon : ℕ)
    (threshold_h : Option ℝ) : Prop :=
  ∃ s, s < t - 1 ∧
    ((s : ℝ) + 1) * ((t : ℝ) - (s : ℝ)) / ((t : ℝ) + 1) *
        klBern (glrMean data (s + 1) t) (glrMean data 0 s) ≥
      threshold_h.getD (compute_c__GLR 0 t horizon).toReal

/-- `BernoulliGLR(all_data, t, threshold_h)`. -/
noncomputable def BernoulliGLR (all_data : List ℝ) (t : ℕ)
    (threshold_h : Option ℝ := none) : Prop :=
  BernoulliGLRCore (all_data.take t) t all_data.length threshold_h

end StatTests

namespace CollisionModels

section UniqLemmas

variable (choices : Fin P → Fin A) (draw : Fin A → ℚ) (hasCH : Fin P → Bool)

theorem mem_occupants {i : Fin P} {a : Fin A} :
    i ∈ occupants choices a ↔ choices i = a := by
  simp [occupants, List.mem_filter]

theorem occupancy_pos (i : Fin P) : 0 < occupancy choices (choices i) :=
  List.length_pos_of_mem ((mem_occupants choices).mpr rfl)

theorem nbCollisions_lt_one_iff (i : Fin P) :
    nbCollisions choices (choices i) < 1 ↔ occupancy choices (choices i) = 1 := by
  have h := occupancy_pos choices i
  unfold nbCollisions
  omega

theorem occupancy_choices_eq {i : Fin P} {a : Fin A} (h : choices i = a) :
    occupancy choices (choices i) = occupancy choices a := by rw [h]

theorem uniqStep_collisions (s : MPState P A) (j : Fin P) (a : Fin A) :
    (uniqStep choices draw hasCH s j).collisions a
      = if ¬ nbCollisions choices (choices j) < 1 ∧ choices j = a then
          s.collisions a + 1
        else s.collisions a := by
  unfold uniqStep
  by_cases h : nbCollisions choices (choices j) < 1
  · rw [if_pos h, if_neg (fun hh => hh.1 h)]
  · rw [if_neg h]
    by_cases hja : choices j = a
    · rw [if_pos ⟨h, hja⟩]
      show (if a = choices j then s.collisions a + 1 else s.collisions a) = _
      rw [if_pos hja.symm]
    · rw [if_neg (fun hh => hja hh.2)]
      show (if a = choices j then s.collisions a + 1 else s.collisions a) = _
      rw [if_neg (fun hc => hja hc.symm)]

theorem uniqStep_rewards (s : MPState P A) (j i : Fin P) :
    (uniqStep choices draw hasCH s j).rewards i
      = if i = j ∧ nbCollisions choices (choices j) < 1 then draw (choices j)
        else s.rewards i := by
  unfold uniqStep
  by_cases hij : i = j
  · subst hij
    by_cases h : nbCollisions choices (choices i) < 1
    · rw [if_pos h, if_pos ⟨rfl, h⟩]
      show Function.update s.rewards i (draw (choices i)) i = _
      rw [Function.update_same]
    · rw [if_neg h, if_neg (fun hh => h hh.2)]
  · by_cases h : nbCollisions choices (choices j) < 1
    · rw [if_pos h, if_neg (fun hh => hij hh.1)]
      show Function.update s.rewards j (draw (choices j)) i = _
      rw [Function.update_noteq hij]
    · rw [if_neg h, if_neg (fun hh => hij hh.1)]

theorem uniqStep_pulls (s : MPState P A) (j i : Fin P) (b : Fin A) :
    (uniqStep choices draw hasCH s j).pulls i b
      = if i = j ∧ nbCollisions choices (choices j) < 1 ∧ b = choices j then
          s.pulls i b + 1
        else s.pulls i b := by
  unfold uniqStep
  by_cases h : nbCollisions choices (choices j) < 1
  · rw [if_pos h]
    show (if i = j ∧ b = choices j then s.pulls i b + 1 else s.pulls i b) = _
    by_cases hc : i = j ∧ b = choices j
    · rw [if_pos hc, if_pos ⟨hc.1, h, hc.2⟩]
    · rw [if_neg hc, if_neg (fun hh => hc ⟨hh.1, hh.2.2⟩)]
  · rw [if_neg h]
    show s.pulls i b = _
    rw [if_neg (fun hh => h hh.2.1)]

theorem uniqStep_events (s : MPState P A) (j : Fin P) :
    (uniqStep choices draw hasCH s j).events
      = s.events ++ [uniqEvent choices draw hasCH j] := by
  unfold uniqStep uniqEvent
  split_ifs with h <;> simp

theorem foldl_uniqStep_collisions (l : List (Fin P)) (s0 : MPState P A) (a : Fin A) :
    ((l.foldl (uniqStep choices draw hasCH) s0).collisions a)
      = s0.collisions a +
        l.countP (fun i =>
          decide (¬ nbCollisions choices (choices i) < 1 ∧ choices i = a)) := by
  induction l generalizing s0 with
  | nil => simp
  | cons j l ih =>
    rw [List.foldl_cons, ih, uniqStep_collisions, List.countP_cons]
    simp only [decide_eq_true_eq]
    split_ifs <;> omega

theorem foldl_uniqStep_rewards (l : List (Fin P)) (s0 : MPState P A) (i : Fin P) :
    ((l.foldl (uniqStep choices draw hasCH) s0).rewards i)
      = if i ∈ l ∧ nbCollisions choices (choices i) < 1 then draw (choices i)
        else s0.rewards i := by
  induction l generalizing s0 with
  | nil => simp
  | cons j l ih =>
    rw [List.foldl_cons, ih]
    by_cases hmem : i ∈ l ∧ nbCollisions choices (choices i) < 1
    · rw [if_pos hmem, if_pos ⟨List.mem_cons_of_mem _ hmem.1, hmem.2⟩]
    · rw [if_neg hmem, uniqStep_rewards]
      by_cases hij : i = j
      · subst hij
        by_cases hc : nbCollisions choices (choices i) < 1
        · rw [if_pos ⟨rfl, hc⟩, if_pos ⟨List.mem_cons_self i l, hc⟩]
        · rw [if_neg (fun hh => hc hh.2), if_neg (fun hh => hc hh.2)]
      · rw [if_neg (fun hh => hij hh.1), if_neg]
        intro hh
        rcases List.mem_cons.mp hh.1 with h1 | h1
        · exact hij h1
        · exact hmem ⟨h1, hh.2⟩

theorem foldl_uniqStep_pulls (l : List (Fin P)) (s0 : MPState P A) (i : Fin P)
    (b : Fin A) :
    ((l.foldl (uniqStep choices draw hasCH) s0).pulls i b)
      = s0.pulls i b +
        (if nbCollisions choices (choices i) < 1 ∧ b = choices i then l.count i
         else 0) := by
  induction l generalizing s0 with
  | nil => simp
  | cons j l ih =>
    rw [List.foldl_cons, ih, uniqStep_pulls]
    by_cases hij : i = j
    · subst hij
      rw [List.count_cons]
      simp only [beq_self_eq_true, if_true]
      split_ifs with h1 h2 h3
      · omega
      · exact absurd ⟨h1.2.1, h1.2.2⟩ h2
      · exact absurd ⟨by trivial, h3.1, h3.2⟩ h1
      · omega
    · rw [if_neg (fun hh => hij hh.1), List.count_cons]
      simp [beq_iff_eq, Ne.symm hij]

theorem foldl_uniqStep_events (l : List (Fin P)) (s0 : MPState P A) :
    ((l.foldl (uniqStep choices draw hasCH) s0).events)
      = s0.events ++ l.map (uniqEvent choices draw hasCH) := by
  induction l generalizing s0 with
  | nil => simp
  | cons j l ih =>
    rw [List.foldl_cons, ih, uniqStep_events, List.map_cons, List.append_assoc]
    rfl

end UniqLemmas

section ArmLemmas

variable (choices : Fin P → Fin A) (draw : Fin A → ℚ) (hasCH : Fin P → Bool)
variable (winner : Fin A → Fin P)

theorem resolveArmStep_collisions (s : MPState P A) (a b : Fin A) :
    (resolveArmStep choices draw hasCH winner s a).collisions b
      = if b = a ∧ 0 < (occupants choices a).length then
          s.collisions b + ((occupants choices a).length - 1)
        else s.collisions b := by
  unfold resolveArmStep
  by_cases h : 0 < (occupants choices a).length
  · rw [if_pos h]
    show (if b = a then s.collisions b + _ else s.collisions b) = _
    by_cases hba : b = a
    · rw [if_pos hba, if_pos ⟨hba, h⟩]
    · rw [if_neg hba, if_neg (fun hh => hba hh.1)]
  · rw [if_neg h, if_neg (fun hh => h hh.2)]

theorem resolveArmStep_pulls (s : MPState P A) (a : Fin A) (i : Fin P) (b : Fin A) :
    (resolveArmStep choices draw hasCH winner s a).pulls i b
      = if i = winner a ∧ b = a ∧ 0 < (occupants choices a).length then
          s.pulls i b + 1
        else s.pulls i b := by
  unfold resolveArmStep
  by_cases h : 0 < (occupants choices a).length
  · rw [if_pos h]
    show (if i = winner a ∧ b = a then s.pulls i b + 1 else s.pulls i b) = _
    by_cases hc : i = winner a ∧ b = a
    · rw [if_pos hc, if_pos ⟨hc.1, hc.2, h⟩]
    · rw [if_neg hc, if_neg (fun hh => hc ⟨hh.1, hh.2.1⟩)]
  · rw [if_neg h, if_neg (fun hh => h hh.2.2)]

theorem resolveArmStep_rewards (s : MPState P A) (a : Fin A) (i : Fin P) :
    (resolveArmStep choices draw hasCH winner s a).rewards i
      = if i = winner a ∧ 0 < (occupants choices a).length then draw a
        else s.rewards i := by
  unfold resolveArmStep
  by_cases h : 0 < (occupants choices a).length
  · rw [if_pos h]
    show Function.update s.rewards (winner a) (draw a) i = _
    by_cases hiw : i = winner a
    · subst hiw
      rw [Function.update_same, if_pos ⟨rfl, h⟩]
    · rw [Function.update_noteq hiw, if_neg (fun hh => hiw hh.1)]
  · rw [if_neg h, if_neg (fun hh => h hh.2)]

theorem resolveArmStep_events (s : MPState P A) (a : Fin A) :
    (resolveArmStep choices draw hasCH winner s a).events
      = s.events ++ armEvents choices draw hasCH winner a := by
  unfold resolveArmStep armEvents
  by_cases h : 0 < (occupants choices a).length
  · rw [if_pos h, if_pos h]
    show s.events ++ _ ++ _ = _
    rw [List.append_assoc]
    rfl
  · rw [if_neg h, if_neg h, List.append_nil]

theorem foldl_resolveArm_collisions (l : List (Fin A)) (s0 : MPState P A) (b : Fin A) :
    ((l.foldl (resolveArmStep choices draw hasCH winner) s0).collisions b)
      = s0.collisions b +
        (if 0 < occupancy choices b then l.count b * (occupancy choices b - 1)
         else 0) := by
  induction l generalizing s0 with
  | nil => simp
  | cons a l ih =>
    rw [List.foldl_cons, ih, resolveArmStep_collisions]
    by_cases hba : b = a
    · subst hba
      rw [List.count_cons]
      simp only [beq_self_eq_true, if_true]
      by_cases h : 0 < occupancy choices b
      · rw [if_pos ⟨by trivial, h⟩, if_pos h, if_pos h]
        simp only [occupancy]
        have hd : (List.count b l + 1) * ((occupants choices b).length - 1)
            = List.count b l * ((occupants choices b).length - 1)
              + ((occupants choices b).length - 1) := by
          ring
        omega
      · rw [if_neg (fun hh => h hh.2), if_neg h, if_neg h]
    · rw [if_neg (fun hh => hba hh.1), List.count_cons]
      simp [beq_iff_eq, Ne.symm hba]

theorem foldl_resolveArm_pulls (l : List (Fin A)) (s0 : MPState P A) (i : Fin P)
    (b : Fin A) :
    ((l.foldl (resolveArmStep choices draw hasCH winner) s0).pulls i b)
      = s0.pulls i b +
        (if i = winner b ∧ 0 < occupancy choices b then l.count b else 0) := by
  induction l generalizing s0 with
  | nil => simp
  | cons a l ih =>
    rw [List.foldl_cons, ih, resolveArmStep_pulls]
    by_cases hba : b = a
    · subst hba
      rw [List.count_cons]
      simp only [beq_self_eq_true, if_true]
      by_cases hc : i = winner b ∧ 0 < occupancy choices b
      · rw [if_pos ⟨hc.1, by trivial, hc.2⟩, if_pos hc, if_pos hc]
        omega
      · rw [if_neg (fun hh => hc ⟨hh.1, hh.2.2⟩), if_neg hc, if_neg hc]
    · rw [if_neg (fun hh => hba hh.2.1), List.count_cons]
      simp [beq_iff_eq, Ne.symm hba]

theorem foldl_resolveArm_rewards
    (Hwinner : ∀ a, 0 < (occupants choices a).length → choices (winner a) = a)
    (l : List (Fin A)) (s0 : MPState P A) (i : Fin P) :
    ((l.foldl (resolveArmStep choices draw hasCH winner) s0).rewards i)
      = if choices i ∈ l ∧ i = winner (choices i) then draw (choices i)
        else s0.rewards i := by
  induction l generalizing s0 with
  | nil => simp
  | cons a l ih =>
    rw [List.foldl_cons, ih]
    by_cases hcond : choices i ∈ l ∧ i = winner (choices i)
    · rw [if_pos hcond, if_pos ⟨List.mem_cons_of_mem _ hcond.1, hcond.2⟩]
    · rw [if_neg hcond, resolveArmStep_rewards]
      by_cases h : 0 < (occupants choices a).length
      · by_cases hiw : i = winner a
        · have hca : choices i = a := by rw [hiw]; exact Hwinner a h
          rw [if_pos ⟨hiw, h⟩, if_pos ⟨hca ▸ List.mem_cons_self a l, by rw [hca]; exact hiw⟩,
            hca]
        · rw [if_neg (fun hh => hiw hh.1), if_neg]
          intro hh
          rcases List.mem_cons.mp hh.1 with h1 | h1
          · exact hiw (h1 ▸ hh.2)
          · exact hcond ⟨h1, hh.2⟩
      · rw [if_neg (fun hh => h hh.2), if_neg]
        intro hh
        rcases List.mem_cons.mp hh.1 with h1 | h1
        · exact h (h1 ▸ occupancy_pos choices i)
        · exact hcond ⟨h1, hh.2⟩

theorem foldl_resolveArm_events (l : List (Fin A)) (s0 : MPState P A) :
    ((l.foldl (resolveArmStep choices draw hasCH winner) s0).events)
      = s0.events ++ (l.map (armEvents choices draw hasCH winner)).flatten := by
  induction l generalizing s0 with
  | nil => simp
  | cons a l ih =>
    rw [List.foldl_cons, ih, resolveArmStep_events, List.map_cons, List.flatten_cons,
      List.append_assoc]

end ArmLemmas

theorem count_finRange {n : ℕ} (x : Fin n) : (List.finRange n).count x = 1 :=
  List.count_eq_one_of_mem (List.nodup_finRange n) (List.mem_finRange x)

section FoldInstances

variable (choices : Fin P → Fin A) (draw : Fin A → ℚ) (hasCH : Fin P → Bool)
variable (winner : Fin A → Fin P)

theorem armFold_collisions (s0 : MPState P A) (b : Fin A) :
    (armFold choices draw hasCH winner s0).collisions b
      = s0.collisions b + (occupancy choices b - 1) := by
  rw [armFold, foldl_resolveArm_collisions, count_finRange]
  by_cases h : 0 < occupancy choices b
  · rw [if_pos h, one_mul]
  · rw [if_neg h]
    have : occupancy choices b = 0 := by omega
    rw [this]

theorem armFold_pulls (s0 : MPState P A) (i : Fin P) (b : Fin A) :
    (armFold choices draw hasCH winner s0).pulls i b
      = s0.pulls i b +
        (if i = winner b ∧ 0 < occupancy choices b then 1 else 0) := by
  rw [armFold, foldl_resolveArm_pulls, count_finRange]

theorem armFold_rewards
    (Hwinner : ∀ a, 0 < (occupants choices a).length → choices (winner a) = a)
    (s0 : MPState P A) (i : Fin P) :
    (armFold choices draw hasCH winner s0).rewards i
      = if i = winner (choices i) then draw (choices i) else s0.rewards i := by
  rw [armFold, foldl_resolveArm_rewards choices draw hasCH winner Hwinner]
  by_cases h : i = winner (choices i)
  · rw [if_pos ⟨List.mem_finRange _, h⟩, if_pos h]
  · rw [if_neg (fun hh => h hh.2), if_neg h]

theorem armFold_events (s0 : MPState P A) :
    (armFold choices draw hasCH winner s0).events
      = s0.events ++
        ((List.finRange A).map (armEvents choices draw hasCH winner)).flatten := by
  rw [armFold, foldl_resolveArm_events]

theorem mem_armFold_events (s0 : MPState P A) (e : PEvent P A) (a : Fin A)
    (he : e ∈ armEvents choices draw hasCH winner a) :
    e ∈ (armFold choices draw hasCH winner s0).events := by
  rw [armFold_events, List.mem_append]
  right
  rw [List.mem_flatten]
  exact ⟨armEvents choices draw hasCH winner a,
    List.mem_map.mpr ⟨a, List.mem_finRange a, rfl⟩, he⟩

end FoldInstances

section MinLemmas

theorem foldl_min_mem : ∀ (xs : List ℚ) (a : ℚ), xs.foldl min a ∈ a :: xs := by
  intro xs
  induction xs with
  | nil => intro a; simp
  | cons x xs ih =>
    intro a
    rw [List.foldl_cons]
    rcases List.mem_cons.mp (ih (min a x)) with h1 | h1
    · rcases min_choice a x with hm | hm
      · rw [h1, hm]
        exact List.mem_cons_self a (x :: xs)
      · rw [h1, hm]
        simp
    · simp [h1]

theorem foldl_min_le : ∀ (xs : List ℚ) (a : ℚ),
    xs.foldl min a ≤ a ∧ ∀ x ∈ xs, xs.foldl min a ≤ x := by
  intro xs
  induction xs with
  | nil => intro a; simp
  | cons x xs ih =>
    intro a
    rw [List.foldl_cons]
    refine ⟨le_trans (ih (min a x)).1 (min_le_left a x), ?_⟩
    intro y hy
    rcases List.mem_cons.mp hy with h | h
    · rw [h]
      exact le_trans (ih (min a x)).1 (min_le_right a x)
    · exact (ih (min a x)).2 y h

theorem qminList_mem (l : List ℚ) (hl : l ≠ []) : qminList l ∈ l := by
  cases l with
  | nil => exact absurd rfl hl
  | cons x xs => exact foldl_min_mem xs x

theorem qminList_le (l : List ℚ) (x : ℚ) (hx : x ∈ l) : qminList l ≤ x := by
  cases l with
  | nil => simp at hx
  | cons y ys =>
    rcases List.mem_cons.mp hx with h | h
    · exact h ▸ (foldl_min_le ys y).1
    · exact (foldl_min_le ys y).2 x h

end MinLemmas

section CloserLemmas

variable (choices : Fin P → Fin A) (distances : Fin P → ℚ)
variable (tieBreak : Fin A → List (Fin P) → Fin P)

theorem occupants_nodup (a : Fin A) : (occupants choices a).Nodup :=
  (List.nodup_finRange P).filter _

theorem closerWinner_eq_of_injective (hinj : Function.Injective distances)
    (a : Fin A) {j : Fin P} (hj : j ∈ occupants choices a)
    (hjd : distances j = qminList ((occupants choices a).map distances)) :
    closerWinner choices distances tieBreak a = j := by
  have hties : ((occupants choices a).filter
      fun k => decide (distances k = qminList ((occupants choices a).map distances)))
      = [j] := by
    have hjm : j ∈ (occupants choices a).filter
        (fun k => decide (distances k = qminList ((occupants choices a).map distances))) :=
      List.mem_filter.mpr ⟨hj, by simpa using hjd⟩
    have hall : ∀ x ∈ (occupants choices a).filter
        (fun k => decide (distances k = qminList ((occupants choices a).map distances))),
        x = j := by
      intro x hx
      have hxd := (List.mem_filter.mp hx).2
      simp only [decide_eq_true_eq] at hxd
      exact hinj (hxd.trans hjd.symm)
    have hnd : ((occupants choices a).filter
        (fun k => decide (distances k = qminList ((occupants choices a).map distances)))).Nodup :=
      (occupants_nodup choices a).filter _
    cases hfe : (occupants choices a).filter
        (fun k => decide (distances k = qminList ((occupants choices a).map distances))) with
    | nil => rw [hfe] at hjm; simp at hjm
    | cons y ys =>
      rw [hfe] at hjm hall hnd
      have hy : y = j := hall y (List.mem_cons_self y ys)
      have hys : ys = [] := by
        cases ys with
        | nil => rfl
        | cons z zs =>
          have hz : z = j := hall z (by simp)
          have : y ∉ z :: zs := (List.nodup_cons.mp hnd).1
          exact absurd (by rw [hy, ← hz]; simp) this
      rw [hy, hys]
  unfold closerWinner
  simp only [hties]
  simp

theorem closerWinner_min_spec (hinj : Function.Injective distances) (a : Fin A)
    (hocc : occupants choices a ≠ []) :
    closerWinner choices distances tieBreak a ∈ occupants choices a ∧
    ∀ k ∈ occupants choices a, k ≠ closerWinner choices distances tieBreak a →
      distances (closerWinner choices distances tieBreak a) < distances k := by
  have hmap : (occupants choices a).map distances ≠ [] := by
    simpa using hocc
  obtain ⟨j, hj, hjd⟩ := List.mem_map.mp (qminList_mem _ hmap)
  have hw := closerWinner_eq_of_injective choices distances tieBreak hinj a hj hjd
  rw [hw]
  refine ⟨hj, ?_⟩
  intro k hk hkj
  have hle : distances j ≤ distances k := by
    rw [hjd]
    exact qminList_le _ _ (List.mem_map.mpr ⟨k, hk, rfl⟩)
  rcases lt_or_eq_of_le hle with h | h
  · exact h
  · exact absurd (hinj h) (Ne.symm hkj)

theorem closerWinner_mem (HtieBreak : ∀ a l, l ≠ [] → tieBreak a l ∈ l)
    (a : Fin A) (hocc : occupants choices a ≠ []) :
    closerWinner choices distances tieBreak a ∈ occupants choices a := by
  have hmap : (occupants choices a).map distances ≠ [] := by simpa using hocc
  obtain ⟨j, hj, hjd⟩ := List.mem_map.mp (qminList_mem _ hmap)
  have hje : j ∈ (occupants choices a).filter
      (fun k => decide (distances k = qminList ((occupants choices a).map distances))) :=
    List.mem_filter.mpr ⟨hj, by simpa using hjd⟩
  unfold closerWinner
  dsimp only
  split
  · exact List.mem_of_mem_filter (List.head_mem _)
  · exact List.mem_of_mem_filter
      (HtieBreak a _ (List.ne_nil_of_mem hje))

end CloserLemmas

section PolicyChar

variable (choices : Fin P → Fin A) (draw : Fin A → ℚ) (hasCH : Fin P → Bool)

theorem onlyUniq_collisions (s0 : MPState P A) (a : Fin A) :
    (onlyUniqUserGetsReward choices draw hasCH s0).collisions a
      = s0.collisions a +
        (if 2 ≤ occupancy choices a then occupancy choices a else 0) := by
  rw [onlyUniqUserGetsReward, foldl_uniqStep_collisions]
  congr 1
  by_cases h2 : 2 ≤ occupancy choices a
  · rw [if_pos h2]
    have hcong : ∀ i ∈ List.finRange P,
        decide (¬ nbCollisions choices (choices i) < 1 ∧ choices i = a) = true
          ↔ decide (choices i = a) = true := by
      intro i _
      simp only [decide_eq_true_eq]
      constructor
      · exact fun hh => hh.2
      · intro hia
        refine ⟨?_, hia⟩
        rw [nbCollisions_lt_one_iff]
        have hocc : occupancy choices (choices i) = occupancy choices a := by rw [hia]
        omega
    rw [List.countP_congr hcong, List.countP_eq_length_filter]
    rfl
  · rw [if_neg h2]
    apply List.countP_eq_zero.mpr
    intro i _
    simp only [decide_eq_true_eq, not_and]
    intro hnb hia
    apply hnb
    rw [nbCollisions_lt_one_iff]
    have hocc : occupancy choices (choices i) = occupancy choices a := by rw [hia]
    have := occupancy_pos choices i
    omega

theorem onlyUniq_pulls (s0 : MPState P A) (i : Fin P) (b : Fin A) :
    (onlyUniqUserGetsReward choices draw hasCH s0).pulls i b
      = s0.pulls i b +
        (if occupancy choices (choices i) = 1 ∧ b = choices i then 1 else 0) := by
  rw [onlyUniqUserGetsReward, foldl_uniqStep_pulls, count_finRange]
  by_cases h1 : occupancy choices (choices i) = 1
  · have hnb : nbCollisions choices (choices i) < 1 :=
      (nbCollisions_lt_one_iff choices i).mpr h1
    by_cases hb : b = choices i
    · rw [if_pos ⟨hnb, hb⟩, if_pos ⟨h1, hb⟩]
    · rw [if_neg (fun hh => hb hh.2), if_neg (fun hh => hb hh.2)]
  · have hnb : ¬ nbCollisions choices (choices i) < 1 :=
      fun hc => h1 ((nbCollisions_lt_one_iff choices i).mp hc)
    rw [if_neg (fun hh => hnb hh.1), if_neg (fun hh => h1 hh.1)]

theorem onlyUniq_rewards (s0 : MPState P A) (i : Fin P) :
    (onlyUniqUserGetsReward choices draw hasCH s0).rewards i
      = if occupancy choices (choices i) = 1 then draw (choices i)
        else s0.rewards i := by
  rw [onlyUniqUserGetsReward, foldl_uniqStep_rewards]
  by_cases h1 : occupancy choices (choices i) = 1
  · rw [if_pos ⟨List.mem_finRange i, (nbCollisions_lt_one_iff choices i).mpr h1⟩,
      if_pos h1]
  · rw [if_neg (fun hh => h1 ((nbCollisions_lt_one_iff choices i).mp hh.2)),
      if_neg h1]

theorem onlyUniq_events (s0 : MPState P A) :
    (onlyUniqUserGetsReward choices draw hasCH s0).events
      = s0.events ++ (List.finRange P).map (uniqEvent choices draw hasCH) :=
  foldl_uniqStep_events choices draw hasCH (List.finRange P) s0

theorem uniqEvent_mem_events (s0 : MPState P A) (i : Fin P) :
    uniqEvent choices draw hasCH i
      ∈ (onlyUniqUserGetsReward choices draw hasCH s0).events := by
  rw [onlyUniq_events, List.mem_append]
  exact Or.inr (List.mem_map.mpr ⟨i, List.mem_finRange i, rfl⟩)

end PolicyChar

theorem headD_mem {α : Type} (l : List α) (d : α) (hl : l ≠ []) : l.headD d ∈ l := by
  cases l with
  | nil => exact absurd rfl hl
  | cons x xs => simp [List.headD]

end CollisionModels

namespace StatTests

theorem take_congr (d1 d2 : List ℝ) (t : ℕ) (hlen : d1.length = d2.length)
    (hag : ∀ i : ℕ, i < t → d1[i]? = d2[i]?) : d1.take t = d2.take t := by
  apply List.ext_getElem?
  intro n
  by_cases hn : n < t
  · rw [List.getElem?_take_of_lt hn, List.getElem?_take_of_lt hn]
    exact hag n hn
  · have h1 : (d1.take t).length ≤ n := by
      rw [List.length_take]
      omega
    have h2 : (d2.take t).length ≤ n := by
      rw [List.length_take]
      omega
    rw [List.getElem?_eq_none h1, List.getElem?_eq_none h2]

theorem compute_h_eval (horizon M : ℕ) (ε : ℚ) (nf nc : ℕ) (qm qp : ℚ)
    (hf : ⌊2 * ε * (M : ℚ)⌋₊ = nf) (hc : ⌈2 * ε * (M : ℚ)⌉₊ = nc)
    (hm : 4 * ε / (1 - ε) ^ 2 * ((M.choose nf : ℕ) : ℚ) * (2 * ε) ^ M + 1 = qm)
    (hp : 4 * ε / (1 + ε) ^ 2 * ((M.choose nc : ℕ) : ℚ) * (2 * ε) ^ M + 1 = qp)
    (hle : qp ≤ qm) (h1 : 1 < qp) :
    compute_h__CUSUM horizon M 1 1 ε
      = 1 / Real.log ((qp : ℚ) : ℝ) * Real.log ((max 1 horizon : ℕ) : ℝ) := by
  unfold compute_h__CUSUM
  dsimp only
  rw [hf, hc, hm, hp]
  have hqp : (0 : ℝ) < Real.log ((qp : ℚ) : ℝ) :=
    Real.log_pos (by exact_mod_cast h1)
  have hmin : min (Real.log ((qm : ℚ) : ℝ)) (Real.log ((qp : ℚ) : ℝ))
      = Real.log ((qp : ℚ) : ℝ) :=
    min_eq_right (Real.log_le_log (by exact_mod_cast lt_trans zero_lt_one h1)
      (by exact_mod_cast hle))
  rw [hmin, if_neg (ne_of_gt hqp),
    show (max 1 1 : ℕ) = 1 from rfl, Nat.cast_one, div_one]

theorem compute_h_eval_half (horizon : ℕ) :
    compute_h__CUSUM horizon 1 1 1 (1/2)
      = 1 / Real.log (((17/9 : ℚ) : ℚ) : ℝ) * Real.log ((max 1 horizon : ℕ) : ℝ) :=
  compute_h_eval horizon 1 (1/2) 1 1 9 (17/9)
    (by norm_num)
    (by norm_num)
    (by norm_num [Nat.choose])
    (by norm_num [Nat.choose])
    (by norm_num)
    (by norm_num)

theorem listMean_replicate (n : ℕ) (c : ℝ) (hn : n ≠ 0) :
    listMean (List.replicate n c) = c := by
  unfold listMean
  rw [List.sum_replicate, List.length_replicate, nsmul_eq_mul]
  have : (n : ℝ) ≠ 0 := Nat.cast_ne_zero.mpr hn
  field_simp

theorem glrMean_take_left (l : List ℝ) (t s : ℕ) (hst : s + 1 < t) :
    glrMean (l.take t) 0 s = listMean (l.take (s + 1)) := by
  unfold glrMean
  rw [List.drop_zero, Nat.sub_zero, List.take_take]
  rw [min_eq_left (by omega : s + 1 ≤ t)]

theorem glrMean_take_right (l : List ℝ) (t s : ℕ) :
    glrMean (l.take t) (s + 1) t = listMean ((l.drop (s + 1)).take (t - (s + 1))) := by
  unfold glrMean
  rw [List.drop_take, List.take_take]
  congr 2
  omega

theorem listMean_singleton (x : ℝ) : listMean [x] = x := by
  simp [listMean]

theorem cusumG_replicate (c ε : ℝ) (hε : 0 < ε) (M t : ℕ) (hM : 1 ≤ M) :
    ∀ k, k ≤ t →
      cusumG (listMean ((List.replicate t c).take M)) ε M (List.replicate t c) k
        = (0, 0) := by
  intro k
  induction k with
  | zero => intro _; rfl
  | succ k ih =>
    intro hk
    rw [cusumG]
    by_cases hkM : k ≤ M
    · rw [if_pos hkM]
      exact ih (by omega)
    · rw [if_neg hkM, ih (by omega)]
      have hklt : k < t := by omega
      have hy : (List.replicate t c).getD k 0 = c := by
        simp [List.getD, List.getElem?_replicate, hklt]
      have hm : listMean ((List.replicate t c).take M) = c := by
        rw [List.take_replicate]
        exact listMean_replicate _ _ (by omega)
      rw [hy, hm, Prod.mk.injEq]
      constructor
      · exact max_eq_left (by simp; linarith)
      · exact max_eq_left (by simp; linarith)

theorem phtG_replicate (c ε : ℝ) (hε : 0 < ε) (t : ℕ) :
    ∀ k, k ≤ t → phtG ε (List.replicate t c) k = (0, 0) := by
  intro k
  induction k with
  | zero => intro _; rfl
  | succ k ih =>
    intro hk
    rw [phtG]
    by_cases hk0 : k = 0
    · rw [if_pos hk0]
    · rw [if_neg hk0, ih (by omega)]
      have hklt : k < t := by omega
      have hy : (List.replicate t c).getD k 0 = c := by
        simp [List.getD, List.getElem?_replicate, hklt]
      have hm : listMean ((List.replicate t c).take k) = c := by
        rw [List.take_replicate]
        exact listMean_replicate _ _ (by omega)
      rw [hy, hm, Prod.mk.injEq]
      constructor
      · exact max_eq_left (by simp; linarith)
      · exact max_eq_left (by simp; linarith)

theorem GaussianGLR_iff (all_data : List ℝ) (t : ℕ) (hthr : Option ℝ) :
    GaussianGLR all_data t hthr ↔
      ∃ s, s + 1 < t ∧
        ((s : ℝ) + 1) * ((t : ℝ) - (s : ℝ)) / ((t : ℝ) + 1) *
            klGauss (listMean ((all_data.drop (s + 1)).take (t - (s + 1))))
              (listMean (all_data.take (s + 1)))
          ≥ hthr.getD (compute_c__GLR 0 t all_data.length).toReal := by
  unfold GaussianGLR GaussianGLRCore
  constructor
  · rintro ⟨s, hs, hg⟩
    refine ⟨s, by omega, ?_⟩
    rwa [glrMean_take_right, glrMean_take_left _ _ _ (by omega)] at hg
  · rintro ⟨s, hs, hg⟩
    refine ⟨s, by omega, ?_⟩
    rw [glrMean_take_right, glrMean_take_left _ _ _ (by omega)]
    exact hg

theorem BernoulliGLR_iff (all_data : List ℝ) (t : ℕ) (hthr : Option ℝ) :
    BernoulliGLR all_data t hthr ↔
      ∃ s, s + 1 < t ∧
        ((s : ℝ) + 1) * ((t : ℝ) - (s : ℝ)) / ((t : ℝ) + 1) *
            klBern (listMean ((all_data.drop (s + 1)).take (t - (s + 1))))
              (listMean (all_data.take (s + 1)))
          ≥ hthr.getD (compute_c__GLR 0 t all_data.length).toReal := by
  unfold BernoulliGLR BernoulliGLRCore
  constructor
  · rintro ⟨s, hs, hg⟩
    refine ⟨s, by omega, ?_⟩
    rwa [glrMean_take_right, glrMean_take_left _ _ _ (by omega)] at hg
  · rintro ⟨s, hs, hg⟩
    refine ⟨s, by omega, ?_⟩
    rw [glrMean_take_right, glrMean_take_left _ _ _ (by omega)]
    exact hg

end StatTests

section CollisionClaims

open CollisionModels

/-- C1 (counterexample): with two players both choosing the single arm and the
all-zero initial state, `onlyUniqUserGetsReward` raises `sum(collisions)` to 2
(each colliding occupant increments the counter once), while
`sum(max(occupancy(arm) - 1, 0))` is 1, so the claimed identity fails for the
`onlyUniqUserGetsReward` collision policy. -/
theorem C1_counterexample :
    ¬ ((∑ a : Fin 1, (onlyUniqUserGetsReward (fun _ : Fin 2 => (0 : Fin 1))
          (fun _ => 1) (fun _ => false) (initState 2 1)).collisions a)
        = (∑ a : Fin 1, (initState 2 1).collisions a)
          + ∑ a : Fin 1, max (occupancy (fun _ : Fin 2 => (0 : Fin 1)) a - 1) 0) := by
  decide

/-- C1 (amended): in every round, `rewardIsSharedUniformly` and
`closerUserGetsReward` increase the `collisions` vector by exactly
`sum(max(occupancy(arm) - 1, 0))` in total, whatever the random choices; under
`onlyUniqUserGetsReward` every occupant of a contended arm increments the
counter once, so the total increase is the sum of `occupancy(arm)` over the
arms with `occupancy(arm) >= 2`. -/
theorem C1_collisions_sum {P A : ℕ} (choices : Fin P → Fin A) (draw : Fin A → ℚ)
    (hasCH : Fin P → Bool) (chooser : Fin A → List (Fin P) → Fin P)
    (distances : Fin P → ℚ) (tieBreak : Fin A → List (Fin P) → Fin P)
    (s0 : MPState P A) :
    ((∑ a, (rewardIsSharedUniformly choices draw hasCH chooser s0).collisions a)
        = (∑ a, s0.collisions a) + ∑ a, max (occupancy choices a - 1) 0)
    ∧ ((∑ a, (closerUserGetsReward choices draw hasCH distances tieBreak s0).collisions a)
        = (∑ a, s0.collisions a) + ∑ a, max (occupancy choices a - 1) 0)
    ∧ ((∑ a, (onlyUniqUserGetsReward choices draw hasCH s0).collisions a)
        = (∑ a, s0.collisions a) +
          ∑ a, (if 2 ≤ occupancy choices a then occupancy choices a else 0)) := by
  refine ⟨?_, ?_, ?_⟩
  · rw [← Finset.sum_add_distrib]
    apply Finset.sum_congr rfl
    intro a _
    rw [rewardIsSharedUniformly, armFold_collisions, max_eq_left (Nat.zero_le _)]
  · rw [← Finset.sum_add_distrib]
    apply Finset.sum_congr rfl
    intro a _
    rw [closerUserGetsReward, armFold_collisions, max_eq_left (Nat.zero_le _)]
  · rw [← Finset.sum_add_distrib]
    apply Finset.sum_congr rfl
    intro a _
    rw [onlyUniq_collisions]

/-- C3: under `onlyUniqUserGetsReward`, a player's pull counts change in a
round iff it is the sole occupant of its chosen arm; in that case its
`pulls[i, choices[i]]` cell increases by exactly 1 (all other cells of its row
are untouched), `rewards[i]` is set to the value drawn from that arm, and
`getReward` is called on the player with that arm and that reward. -/
theorem C3_onlyUniq_sole_occupant {P A : ℕ} (choices : Fin P → Fin A)
    (draw : Fin A → ℚ) (hasCH : Fin P → Bool) (s0 : MPState P A) (i : Fin P) :
    ((∃ b, (onlyUniqUserGetsReward choices draw hasCH s0).pulls i b ≠ s0.pulls i b)
        ↔ occupancy choices (choices i) = 1)
    ∧ (occupancy choices (choices i) = 1 →
        (onlyUniqUserGetsReward choices draw hasCH s0).pulls i (choices i)
            = s0.pulls i (choices i) + 1
        ∧ (∀ b, b ≠ choices i →
            (onlyUniqUserGetsReward choices draw hasCH s0).pulls i b = s0.pulls i b)
        ∧ (onlyUniqUserGetsReward choices draw hasCH s0).rewards i = draw (choices i)
        ∧ PEvent.getReward i (choices i) (draw (choices i))
            ∈ (onlyUniqUserGetsReward choices draw hasCH s0).events) := by
  constructor
  · constructor
    · rintro ⟨b, hb⟩
      by_contra h1
      apply hb
      rw [onlyUniq_pulls, if_neg (fun hh => h1 hh.1), add_zero]
    · intro h1
      refine ⟨choices i, ?_⟩
      rw [onlyUniq_pulls, if_pos ⟨h1, rfl⟩]
      omega
  · intro h1
    refine ⟨?_, ?_, ?_, ?_⟩
    · rw [onlyUniq_pulls, if_pos ⟨h1, rfl⟩]
    · intro b hb
      rw [onlyUniq_pulls, if_neg (fun hh => hb hh.2), add_zero]
    · rw [onlyUniq_rewards, if_pos h1]
    · have hm := uniqEvent_mem_events choices draw hasCH s0 i
      rwa [uniqEvent, if_pos ((nbCollisions_lt_one_iff choices i).mpr h1)] at hm

/-- C9: under `closerUserGetsReward`, when the distance values are pairwise
distinct, every occupied arm grants exactly one pull increment, namely to its
occupant of minimal distance; that occupant's `rewards` cell is set to the
drawn value and it receives `getReward(arm, reward)`, no other player's pull
cell for that arm changes, and every other occupant receives the collision
notification (`handleCollision` if supported, else `getReward(arm, 0)`). -/
theorem C9_closer_min_distance {P A : ℕ} (choices : Fin P → Fin A)
    (draw : Fin A → ℚ) (hasCH : Fin P → Bool) (distances : Fin P → ℚ)
    (tieBreak : Fin A → List (Fin P) → Fin P) (s0 : MPState P A)
    (hinj : Function.Injective distances) :
    ∀ a : Fin A, occupants choices a ≠ [] →
      ∃ j ∈ occupants choices a,
        (∀ k ∈ occupants choices a, k ≠ j → distances j < distances k)
        ∧ (closerUserGetsReward choices draw hasCH distances tieBreak s0).pulls j a
            = s0.pulls j a + 1
        ∧ (closerUserGetsReward choices draw hasCH distances tieBreak s0).rewards j
            = draw a
        ∧ PEvent.getReward j a (draw a)
            ∈ (closerUserGetsReward choices draw hasCH distances tieBreak s0).events
        ∧ (∀ k, k ≠ j →
            (closerUserGetsReward choices draw hasCH distances tieBreak s0).pulls k a
              = s0.pulls k a)
        ∧ (∀ k ∈ occupants choices a, k ≠ j →
            (if hasCH k then PEvent.handleCollision k a else PEvent.getReward k a 0)
              ∈ (closerUserGetsReward choices draw hasCH distances tieBreak s0).events) := by
  intro a hocc
  obtain ⟨hwmem, hwmin⟩ := closerWinner_min_spec choices distances tieBreak hinj a hocc
  have hchoice : choices (closerWinner choices distances tieBreak a) = a :=
    (mem_occupants choices).mp hwmem
  have hocc_pos : 0 < occupancy choices a := List.length_pos.mpr hocc
  have hlen_pos : 0 < (occupants choices a).length := hocc_pos
  have Hw : ∀ b, 0 < (occupants choices b).length →
      choices (closerWinner choices distances tieBreak b) = b := by
    intro b hb
    exact (mem_occupants choices).mp
      (closerWinner_min_spec choices distances tieBreak hinj b (List.length_pos.mp hb)).1
  refine ⟨closerWinner choices distances tieBreak a, hwmem, hwmin, ?_, ?_, ?_, ?_, ?_⟩
  · rw [closerUserGetsReward, armFold_pulls, if_pos ⟨rfl, hocc_pos⟩]
  · rw [closerUserGetsReward, armFold_rewards choices draw hasCH _ Hw, hchoice,
      if_pos rfl]
  · apply mem_armFold_events choices draw hasCH _ s0 _ a
    rw [armEvents, if_pos hlen_pos]
    exact List.mem_cons_self _ _
  · intro k hk
    rw [closerUserGetsReward, armFold_pulls, if_neg (fun hh => hk hh.1), add_zero]
  · intro k hkmem hkj
    apply mem_armFold_events choices draw hasCH _ s0 _ a
    rw [armEvents, if_pos hlen_pos]
    apply List.mem_cons_of_mem
    exact List.mem_map.mpr
      ⟨k, List.mem_filter.mpr ⟨hkmem, by simpa using hkj⟩, rfl⟩

/-- C9 witness: two players, one arm, distances `0 < 1`; the theorem applies
at this concrete input with the injectivity and occupation hypotheses
discharged. -/
theorem C9_witness :
    ∃ j ∈ CollisionModels.occupants (fun _ : Fin 2 => (0 : Fin 1)) 0,
      (∀ k ∈ CollisionModels.occupants (fun _ : Fin 2 => (0 : Fin 1)) 0, k ≠ j →
          ((j : ℕ) : ℚ) < ((k : ℕ) : ℚ))
      ∧ (CollisionModels.closerUserGetsReward (fun _ : Fin 2 => (0 : Fin 1))
            (fun _ => 1) (fun _ => false) (fun i => ((i : ℕ) : ℚ))
            (fun _ l => l.headD 0) (CollisionModels.initState 2 1)).pulls j 0
          = (CollisionModels.initState 2 1).pulls j 0 + 1
      ∧ (CollisionModels.closerUserGetsReward (fun _ : Fin 2 => (0 : Fin 1))
            (fun _ => 1) (fun _ => false) (fun i => ((i : ℕ) : ℚ))
            (fun _ l => l.headD 0) (CollisionModels.initState 2 1)).rewards j
          = 1
      ∧ CollisionModels.PEvent.getReward j 0 1
          ∈ (CollisionModels.closerUserGetsReward (fun _ : Fin 2 => (0 : Fin 1))
            (fun _ => 1) (fun _ => false) (fun i => ((i : ℕ) : ℚ))
            (fun _ l => l.headD 0) (CollisionModels.initState 2 1)).events
      ∧ (∀ k, k ≠ j →
          (CollisionModels.closerUserGetsReward (fun _ : Fin 2 => (0 : Fin 1))
            (fun _ => 1) (fun _ => false) (fun i => ((i : ℕ) : ℚ))
            (fun _ l => l.headD 0) (CollisionModels.initState 2 1)).pulls k 0
            = (CollisionModels.initState 2 1).pulls k 0)
      ∧ (∀ k ∈ CollisionModels.occupants (fun _ : Fin 2 => (0 : Fin 1)) 0, k ≠ j →
          (if (fun _ : Fin 2 => false) k then CollisionModels.PEvent.handleCollision k 0
           else CollisionModels.PEvent.getReward k 0 0)
            ∈ (CollisionModels.closerUserGetsReward (fun _ : Fin 2 => (0 : Fin 1))
              (fun _ => 1) (fun _ => false) (fun i => ((i : ℕ) : ℚ))
              (fun _ l => l.headD 0) (CollisionModels.initState 2 1)).events) :=
  C9_closer_min_distance (fun _ : Fin 2 => (0 : Fin 1)) (fun _ => 1) (fun _ => false)
    (fun i => ((i : ℕ) : ℚ)) (fun _ l => l.headD 0) (CollisionModels.initState 2 1)
    (fun a b h => Fin.val_injective (Nat.cast_injective h)) 0 (by decide)

/-- C10: in a round resolved by any of the three contested collision policies,
a player that is not granted its chosen arm keeps its `rewards` cell and its
entire `pulls` row unchanged (the zero reward of the degraded collision
callback is never written into the `rewards` array). -/
theorem C10_losers_frame {P A : ℕ} (choices : Fin P → Fin A) (draw : Fin A → ℚ)
    (hasCH : Fin P → Bool) (chooser : Fin A → List (Fin P) → Fin P)
    (distances : Fin P → ℚ) (tieBreak : Fin A → List (Fin P) → Fin P)
    (s0 : MPState P A)
    (Hchooser : ∀ a l, l ≠ [] → chooser a l ∈ l)
    (HtieBreak : ∀ a l, l ≠ [] → tieBreak a l ∈ l) :
    (∀ i, occupancy choices (choices i) ≠ 1 →
       (onlyUniqUserGetsReward choices draw hasCH s0).rewards i = s0.rewards i
       ∧ ∀ b, (onlyUniqUserGetsReward choices draw hasCH s0).pulls i b = s0.pulls i b)
    ∧ (∀ i, i ≠ chooser (choices i) (occupants choices (choices i)) →
       (rewardIsSharedUniformly choices draw hasCH chooser s0).rewards i = s0.rewards i
       ∧ ∀ b, (rewardIsSharedUniformly choices draw hasCH chooser s0).pulls i b
           = s0.pulls i b)
    ∧ (∀ i, i ≠ closerWinner choices distances tieBreak (choices i) →
       (closerUserGetsReward choices draw hasCH distances tieBreak s0).rewards i
           = s0.rewards i
       ∧ ∀ b, (closerUserGetsReward choices draw hasCH distances tieBreak s0).pulls i b
           = s0.pulls i b) := by
  have HwS : ∀ b, 0 < (occupants choices b).length →
      choices (chooser b (occupants choices b)) = b := by
    intro b hb
    exact (mem_occupants choices).mp (Hchooser b _ (List.length_pos.mp hb))
  have HwC : ∀ b, 0 < (occupants choices b).length →
      choices (closerWinner choices distances tieBreak b) = b := by
    intro b hb
    exact (mem_occupants choices).mp
      (closerWinner_mem choices distances tieBreak HtieBreak b (List.length_pos.mp hb))
  refine ⟨?_, ?_, ?_⟩
  · intro i h1
    refine ⟨?_, ?_⟩
    · rw [onlyUniq_rewards, if_neg h1]
    · intro b
      rw [onlyUniq_pulls, if_neg (fun hh => h1 hh.1), add_zero]
  · intro i hi
    refine ⟨?_, ?_⟩
    · rw [rewardIsSharedUniformly, armFold_rewards choices draw hasCH _ HwS,
        if_neg hi]
    · intro b
      rw [rewardIsSharedUniformly, armFold_pulls, if_neg, add_zero]
      intro hh
      have hb : choices i = b := by rw [hh.1]; exact HwS b hh.2
      exact hi (by rw [hb]; exact hh.1)
  · intro i hi
    refine ⟨?_, ?_⟩
    · rw [closerUserGetsReward, armFold_rewards choices draw hasCH _ HwC,
        if_neg hi]
    · intro b
      rw [closerUserGetsReward, armFold_pulls, if_neg, add_zero]
      intro hh
      have hb : choices i = b := by rw [hh.1]; exact HwC b hh.2
      exact hi (by rw [hb]; exact hh.1)

/-- C10 witness: two players on one arm, head-choosing oracles; player 1 is not
granted the arm under any of the three policies and its state is untouched. -/
theorem C10_witness :
    (∀ i : Fin 2, CollisionModels.occupancy (fun _ : Fin 2 => (0 : Fin 1))
          ((fun _ : Fin 2 => (0 : Fin 1)) i) ≠ 1 →
       (CollisionModels.onlyUniqUserGetsReward (fun _ : Fin 2 => (0 : Fin 1))
          (fun _ => 1) (fun _ => false) (CollisionModels.initState 2 1)).rewards i
          = (CollisionModels.initState 2 1).rewards i
       ∧ ∀ b, (CollisionModels.onlyUniqUserGetsReward (fun _ : Fin 2 => (0 : Fin 1))
          (fun _ => 1) (fun _ => false) (CollisionModels.initState 2 1)).pulls i b
          = (CollisionModels.initState 2 1).pulls i b)
    ∧ (∀ i : Fin 2, i ≠ (fun _ l => l.headD (0 : Fin 2))
          ((fun _ : Fin 2 => (0 : Fin 1)) i)
          (CollisionModels.occupants (fun _ : Fin 2 => (0 : Fin 1))
            ((fun _ : Fin 2 => (0 : Fin 1)) i)) →
       (CollisionModels.rewardIsSharedUniformly (fun _ : Fin 2 => (0 : Fin 1))
          (fun _ => 1) (fun _ => false) (fun _ l => l.headD 0)
          (CollisionModels.initState 2 1)).rewards i
          = (CollisionModels.initState 2 1).rewards i
       ∧ ∀ b, (CollisionModels.rewardIsSharedUniformly (fun _ : Fin 2 => (0 : Fin 1))
          (fun _ => 1) (fun _ => false) (fun _ l => l.headD 0)
          (CollisionModels.initState 2 1)).pulls i b
          = (CollisionModels.initState 2 1).pulls i b)
    ∧ (∀ i : Fin 2, i ≠ CollisionModels.closerWinner (fun _ : Fin 2 => (0 : Fin 1))
          (fun i => ((i : ℕ) : ℚ)) (fun _ l => l.headD 0)
          ((fun _ : Fin 2 => (0 : Fin 1)) i) →
       (CollisionModels.closerUserGetsReward (fun _ : Fin 2 => (0 : Fin 1))
          (fun _ => 1) (fun _ => false) (fun i => ((i : ℕ) : ℚ)) (fun _ l => l.headD 0)
          (CollisionModels.initState 2 1)).rewards i
          = (CollisionModels.initState 2 1).rewards i
       ∧ ∀ b, (CollisionModels.closerUserGetsReward (fun _ : Fin 2 => (0 : Fin 1))
          (fun _ => 1) (fun _ => false) (fun i => ((i : ℕ) : ℚ)) (fun _ l => l.headD 0)
          (CollisionModels.initState 2 1)).pulls i b
          = (CollisionModels.initState 2 1).pulls i b) :=
  C10_losers_frame (fun _ : Fin 2 => (0 : Fin 1)) (fun _ => 1) (fun _ => false)
    (fun _ l => l.headD 0) (fun i => ((i : ℕ) : ℚ)) (fun _ l => l.headD 0)
    (CollisionModels.initState 2 1)
    (fun _ l hl => CollisionModels.headD_mem l 0 hl)
    (fun _ l hl => CollisionModels.headD_mem l 0 hl)

end CollisionClaims

section DetectorClaims

open StatTests

/-- C8: each detector is a function of the visible prefix `observations[0:t]`,
the total stream length and its numeric parameters: two streams of equal length
that agree on indices `0..t-1` yield the same decision at time `t` for
`Monitored`, `CUSUM`, `PHT`, `GaussianGLR` and `BernoulliGLR`. -/
theorem C8_detectors_prefix_deterministic (d1 d2 : List ℝ) (t : ℕ) (w : ℕ)
    (b : Option ℝ) (ε : ℚ) (M : ℕ) (h hG hB : Option ℝ)
    (hlen : d1.length = d2.length)
    (hag : ∀ i : ℕ, i < t → d1[i]? = d2[i]?) :
    (Monitored d1 t w b ↔ Monitored d2 t w b)
    ∧ (CUSUM d1 t ε M h ↔ CUSUM d2 t ε M h)
    ∧ (PHT d1 t ε M h ↔ PHT d2 t ε M h)
    ∧ (GaussianGLR d1 t hG ↔ GaussianGLR d2 t hG)
    ∧ (BernoulliGLR d1 t hB ↔ BernoulliGLR d2 t hB) := by
  have htake := take_congr d1 d2 t hlen hag
  refine ⟨?_, ?_, ?_, ?_, ?_⟩
  · rw [Monitored, Monitored, htake, hlen]
  · rw [CUSUM, CUSUM, htake, hlen]
  · rw [PHT, PHT, htake, hlen]
  · rw [GaussianGLR, GaussianGLR, htake, hlen]
  · rw [BernoulliGLR, BernoulliGLR, htake, hlen]

/-- C8 witness: two concrete streams agreeing on the first two entries but
differing afterwards; the theorem applies at `t = 2`. -/
theorem C8_witness :
    (Monitored [(0 : ℝ), 1, 5] 2 80 none ↔ Monitored [(0 : ℝ), 1, 7] 2 80 none)
    ∧ (CUSUM [(0 : ℝ), 1, 5] 2 (1/2) 100 none ↔ CUSUM [(0 : ℝ), 1, 7] 2 (1/2) 100 none)
    ∧ (PHT [(0 : ℝ), 1, 5] 2 (1/2) 100 none ↔ PHT [(0 : ℝ), 1, 7] 2 (1/2) 100 none)
    ∧ (GaussianGLR [(0 : ℝ), 1, 5] 2 none ↔ GaussianGLR [(0 : ℝ), 1, 7] 2 none)
    ∧ (BernoulliGLR [(0 : ℝ), 1, 5] 2 none ↔ BernoulliGLR [(0 : ℝ), 1, 7] 2 none) :=
  C8_detectors_prefix_deterministic [(0 : ℝ), 1, 5] [(0 : ℝ), 1, 7] 2 80 none
    (1/2) 100 none none none rfl
    (fun i hi => by interval_cases i <;> rfl)

/-- C4: for `t` within the stream, `Monitored(all_data, t)` with window `w` and
no explicit threshold returns no detection when `t < w`; otherwise it detects
iff the absolute difference between the sums of the two halves of the last `w`
visible samples exceeds `b = sqrt(w/2 * log(2*K*T^2))` with `K = 1` arms and
`T` the stream length. -/
theorem C4_Monitored_window (all_data : List ℝ) (t w : ℕ)
    (hT : t ≤ all_data.length) :
    (t < w → ¬ Monitored all_data t w none)
    ∧ (w ≤ t →
        (Monitored all_data t w none ↔
          |(((all_data.take t).drop (t - w)).take (w / 2)).sum -
              (((all_data.take t).drop (t - w)).drop (w / 2)).sum| >
            Real.sqrt ((w : ℝ) / 2 *
              Real.log (2 * 1 * (all_data.length : ℝ) ^ 2)))) := by
  have hlen : (all_data.take t).length = t := by
    rw [List.length_take]
    omega
  constructor
  · intro htw
    unfold Monitored MonitoredCore
    rw [hlen, if_pos htw]
    exact not_false
  · intro hwt
    unfold Monitored MonitoredCore
    rw [hlen, if_neg (by omega : ¬ t < w), Option.getD_none,
      show ((NB_ARMS : ℕ) : ℝ) = 1 from by norm_num [NB_ARMS]]

/-- C4 witness: stream `[0, 0]`, `t = 2`, `w = 2`; both branches of the theorem
apply at this concrete input. -/
theorem C4_witness :
    (2 < 2 → ¬ Monitored [(0 : ℝ), 0] 2 2 none)
    ∧ (2 ≤ 2 →
        (Monitored [(0 : ℝ), 0] 2 2 none ↔
          |((([(0 : ℝ), 0].take 2).drop (2 - 2)).take (2 / 2)).sum -
              ((([(0 : ℝ), 0].take 2).drop (2 - 2)).drop (2 / 2)).sum| >
            Real.sqrt ((2 : ℝ) / 2 *
              Real.log (2 * 1 * ((List.length [(0 : ℝ), 0] : ℕ) : ℝ) ^ 2)))) :=
  C4_Monitored_window [(0 : ℝ), 0] 2 2 (by simp)

/-- C7: for valid parameters the CUSUM threshold `compute_h__CUSUM` is a
well-defined nonnegative real (the `C1 = 0` guard substitutes 1), and the GLR
threshold `compute_c__GLR` is nonnegative in `EReal`, equal to `+∞` exactly on
the guard path `t = t0` where the float code clamps `-∞` to `+∞`. -/
theorem C7_thresholds_nonneg (horizon M nbArms : ℕ) (ε : ℚ) (t0 t : ℕ)
    (hH : 1 ≤ horizon) (hM : 1 ≤ M) (hε0 : 0 < ε) (hε1 : ε < 1) (ht0 : t0 ≤ t) :
    0 ≤ compute_h__CUSUM horizon M 1 nbArms ε
    ∧ (0 : EReal) ≤ compute_c__GLR t0 t horizon
    ∧ compute_c__GLR t0 t0 horizon = ⊤ := by
  refine ⟨?_, ?_, ?_⟩
  · unfold compute_h__CUSUM
    dsimp only
    have hε0' : (0 : ℝ) ≤ (ε : ℝ) := by exact_mod_cast le_of_lt hε0
    have hlog : ∀ (q : ℚ), 0 ≤ q → (0 : ℝ) ≤ Real.log ((q + 1 : ℚ) : ℝ) := by
      intro q hq
      apply Real.log_nonneg
      have hq' : (0 : ℝ) ≤ (q : ℝ) := by exact_mod_cast hq
      push_cast
      linarith
    have hq1 : (0 : ℚ) ≤ 4 * ε / (1 - ε) ^ 2 * (M.choose ⌊2 * ε * (M : ℚ)⌋₊) *
        (2 * ε) ^ M := by
      have h3 : (0 : ℚ) ≤ 4 * ε / (1 - ε) ^ 2 :=
        div_nonneg (by linarith) (sq_nonneg _)
      exact mul_nonneg (mul_nonneg h3 (Nat.cast_nonneg _))
        (pow_nonneg (by linarith) M)
    have hq2 : (0 : ℚ) ≤ 4 * ε / (1 + ε) ^ 2 * (M.choose ⌈2 * ε * (M : ℚ)⌉₊) *
        (2 * ε) ^ M := by
      have h3 : (0 : ℚ) ≤ 4 * ε / (1 + ε) ^ 2 :=
        div_nonneg (by linarith) (sq_nonneg _)
      exact mul_nonneg (mul_nonneg h3 (Nat.cast_nonneg _))
        (pow_nonneg (by linarith) M)
    have hT : (0 : ℝ) ≤ Real.log (((max 1 horizon : ℕ) : ℝ) / ((max 1 1 : ℕ) : ℝ)) := by
      apply Real.log_nonneg
      rw [show (max 1 1 : ℕ) = 1 from rfl, Nat.cast_one, div_one]
      exact_mod_cast le_max_left 1 horizon
    split_ifs with hc
    · rw [one_div_one, one_mul]
      exact hT
    · exact mul_nonneg (one_div_nonneg.mpr (le_min (hlog _ hq1) (hlog _ hq2))) hT
  · unfold compute_c__GLR
    dsimp only
    split_ifs with hd
    · exact le_top
    · apply EReal.coe_nonneg.mpr
      have hd1 : 1 ≤ ((t : ℤ) - (t0 : ℤ)).natAbs := Nat.one_le_iff_ne_zero.mpr hd
      have hd2 : (1 : ℝ) ≤ ((((t : ℤ) - (t0 : ℤ)).natAbs : ℕ) : ℝ) := by
        exact_mod_cast hd1
      apply mul_nonneg
      · positivity
      · apply Real.log_nonneg
        have hT : (1 : ℝ) ≤ ((max 1 horizon : ℕ) : ℝ) := by
          exact_mod_cast le_max_left 1 horizon
        rw [div_div_eq_mul_div, div_one]
        have hs : (1 : ℝ) ≤ Real.sqrt ((((t : ℤ) - (t0 : ℤ)).natAbs : ℝ) + 2) :=
          Real.one_le_sqrt.mpr (by linarith)
        have h2 : (1 : ℝ) ≤ 2 * (((t : ℤ) - (t0 : ℤ)).natAbs : ℝ) *
            Real.sqrt ((((t : ℤ) - (t0 : ℤ)).natAbs : ℝ) + 2) := by
          nlinarith
        nlinarith
  · unfold compute_c__GLR
    dsimp only
    rw [if_pos (by simp)]

/-- C7 witness: `horizon = 10`, `M = 2`, `ε = 1/2`, `t0 = 3 ≤ t = 7`; the
theorem applies with every hypothesis discharged at this concrete input. -/
theorem C7_witness :
    0 ≤ compute_h__CUSUM 10 2 1 1 (1/2)
    ∧ (0 : EReal) ≤ compute_c__GLR 3 7 10
    ∧ compute_c__GLR 3 3 10 = ⊤ :=
  C7_thresholds_nonneg 10 2 1 (1/2) 3 7 (by decide) (by decide) one_half_pos
    one_half_lt_one (by decide)

/-- C2 (code bug): with no explicit threshold, `CUSUM`/`PHT` invoke
`compute_h__CUSUM(horizon, M, 1, epsilon=epsilon)`, which binds the caller's
`M` positionally to the unused `verbose` parameter and sets `M = 1` inside the
threshold computation.  At `horizon = 100`, `ε = 1/4` the threshold actually
used is `log 100 / log (33/25)` (the `M = 1` value) for every caller `M`,
whereas the claimed formula evaluated at the caller's `M = 3` yields the
different value `log 100 / log (31/25)`. -/
theorem C2_threshold_ignores_M :
    compute_h__CUSUM 100 1 1 1 (1/4) = Real.log 100 / Real.log (33/25)
    ∧ compute_h__CUSUM 100 3 1 1 (1/4) = Real.log 100 / Real.log (31/25)
    ∧ compute_h__CUSUM 100 1 1 1 (1/4) ≠ compute_h__CUSUM 100 3 1 1 (1/4) := by
  have e1 : compute_h__CUSUM 100 1 1 1 (1/4)
      = 1 / Real.log (((33/25 : ℚ) : ℚ) : ℝ) * Real.log ((max 1 100 : ℕ) : ℝ) :=
    compute_h_eval 100 1 (1/4) 0 1 (17/9) (33/25)
      (by norm_num)
      (by rw [Nat.ceil_eq_iff (by norm_num)] <;> norm_num)
      (by norm_num [Nat.choose])
      (by norm_num [Nat.choose])
      (by norm_num)
      (by norm_num)
  have e2 : compute_h__CUSUM 100 3 1 1 (1/4)
      = 1 / Real.log (((31/25 : ℚ) : ℚ) : ℝ) * Real.log ((max 1 100 : ℕ) : ℝ) :=
    compute_h_eval 100 3 (1/4) 1 2 (5/3) (31/25)
      (by rw [Nat.floor_eq_iff (by norm_num)] <;> norm_num)
      (by rw [Nat.ceil_eq_iff (by norm_num)] <;> norm_num)
      (by norm_num [Nat.choose])
      (by norm_num [Nat.choose])
      (by norm_num)
      (by norm_num)
  have hcast1 : (((33/25 : ℚ) : ℚ) : ℝ) = 33/25 := by norm_num
  have hcast2 : (((31/25 : ℚ) : ℚ) : ℝ) = 31/25 := by norm_num
  have hmax : ((max 1 100 : ℕ) : ℝ) = 100 := by norm_num
  have hb : (0 : ℝ) < Real.log (33/25) := Real.log_pos (by norm_num)
  have hc : (0 : ℝ) < Real.log (31/25) := Real.log_pos (by norm_num)
  have hbc : Real.log (31/25) < Real.log (33/25) :=
    Real.log_lt_log (by norm_num) (by norm_num)
  have ha : (0 : ℝ) < Real.log 100 := Real.log_pos (by norm_num)
  refine ⟨?_, ?_, ?_⟩
  · rw [e1, hcast1, hmax, one_div_mul_eq_div]
  · rw [e2, hcast2, hmax, one_div_mul_eq_div]
  · rw [e1, e2, hcast1, hcast2, hmax, one_div_mul_eq_div, one_div_mul_eq_div]
    intro heq
    rw [div_eq_div_iff (ne_of_gt hb) (ne_of_gt hc)] at heq
    have hlog : Real.log (31/25) = Real.log (33/25) :=
      mul_left_cancel₀ (ne_of_gt ha) heq
    linarith

/-- C6 (counterexample): on the length-1 constant stream `[1/2]`, `PHT` with
default parameters reports a detection at `t = 1`: the default threshold is
`log(1/1)/C1 = 0`, both running statistics are 0 after the (NaN-absorbing)
first iteration, and the test `max(g+, g-) ≥ h` holds at `0 ≥ 0`. -/
theorem C6_counterexample : PHT [(1/2 : ℝ)] 1 (1/2) 100 none := by
  unfold PHT PHTCore
  refine ⟨0, ?_, ?_⟩
  · simp
  · have hg : phtG ((1/2 : ℚ) : ℝ) (([(1/2 : ℝ)] : List ℝ).take 1) (0 + 1) = (0, 0) := by
      rw [phtG, if_pos rfl]
    rw [hg, Option.getD_none,
      show List.length [(1/2 : ℝ)] = 1 from rfl, compute_h_eval_half 1,
      show (max 1 1 : ℕ) = 1 from rfl, Nat.cast_one, Real.log_one, mul_zero]
    simp

/-- C6 (amended): on every constant stream, `CUSUM` with default parameters
(`ε = 1/2`, `M = 100`, default threshold) never detects a change at any
`t ≤ horizon`, and its running statistics `g+`, `g-` stay `(0, 0)`; `PHT`
likewise never detects provided the horizon is at least 2 — on a horizon-1
stream the default threshold is `log 1 = 0` and `PHT`'s `≥` test fires at
`t = 1` even though its statistics are zero. -/
theorem C6_constant_stream (c : ℝ) (T t : ℕ) (htT : t ≤ T) :
    (∀ k, k ≤ t →
        cusumG (listMean (((List.replicate T c).take t).take 100)) ((1/2 : ℚ) : ℝ) 100
          ((List.replicate T c).take t) k = (0, 0))
    ∧ (∀ k, k ≤ t → phtG ((1/2 : ℚ) : ℝ) ((List.replicate T c).take t) k = (0, 0))
    ∧ ¬ CUSUM (List.replicate T c) t (1/2) 100 none
    ∧ (2 ≤ T → ¬ PHT (List.replicate T c) t (1/2) 100 none) := by
  have hdata : (List.replicate T c).take t = List.replicate t c := by
    rw [List.take_replicate]
    congr 1
    omega
  have hε : (0 : ℝ) < ((1/2 : ℚ) : ℝ) := by norm_num
  have hgc := cusumG_replicate c ((1/2 : ℚ) : ℝ) hε 100 t (by norm_num)
  have hgp := phtG_replicate c ((1/2 : ℚ) : ℝ) hε t
  have hpos : ∀ T' : ℕ, 2 ≤ T' →
      (0 : ℝ) < 1 / Real.log (((17/9 : ℚ) : ℚ) : ℝ) * Real.log ((max 1 T' : ℕ) : ℝ) := by
    intro T' hT2
    apply mul_pos
    · apply one_div_pos.mpr
      apply Real.log_pos
      norm_num
    · apply Real.log_pos
      rw [show (max 1 T' : ℕ) = T' from by omega]
      exact_mod_cast (by omega : 1 < T')
  refine ⟨?_, ?_, ?_, ?_⟩
  · rw [hdata]
    exact hgc
  · rw [hdata]
    exact hgp
  · unfold CUSUM CUSUMCore
    rw [hdata, List.length_replicate, List.length_replicate]
    rintro ⟨k, hk, hkM, hge⟩
    rw [hgc (k + 1) (by omega), Option.getD_none, compute_h_eval_half T] at hge
    simp only [Prod.fst, Prod.snd, max_self] at hge
    have := hpos T (by omega)
    linarith
  · intro hT2
    unfold PHT PHTCore
    rw [hdata, List.length_replicate, List.length_replicate]
    rintro ⟨k, hk, hge⟩
    rw [hgp (k + 1) (by omega), Option.getD_none, compute_h_eval_half T] at hge
    simp only [Prod.fst, Prod.snd, max_self] at hge
    have := hpos T hT2
    linarith

/-- C5 (amended): `GaussianGLR(all_data, t)` (and likewise `BernoulliGLR` with
the clamped Bernoulli KL) detects iff some split point `s` with `s + 1 < t`
makes the statistic `(s+1)(t-s)/(t+1) * kl(mean(observations[s+1:t]),
mean(observations[0..s]))` reach (`>=`, not strictly exceed) the threshold,
which defaults to `compute_c__GLR(0, t, len(all_data))`. -/
theorem C5_GLR_detection (all_data : List ℝ) (t : ℕ) (hthr : Option ℝ) :
    (GaussianGLR all_data t hthr ↔
      ∃ s, s + 1 < t ∧
        ((s : ℝ) + 1) * ((t : ℝ) - (s : ℝ)) / ((t : ℝ) + 1) *
            klGauss (listMean ((all_data.drop (s + 1)).take (t - (s + 1))))
              (listMean (all_data.take (s + 1)))
          ≥ hthr.getD (compute_c__GLR 0 t all_data.length).toReal)
    ∧ (BernoulliGLR all_data t hthr ↔
      ∃ s, s + 1 < t ∧
        ((s : ℝ) + 1) * ((t : ℝ) - (s : ℝ)) / ((t : ℝ) + 1) *
            klBern (listMean ((all_data.drop (s + 1)).take (t - (s + 1))))
              (listMean (all_data.take (s + 1)))
          ≥ hthr.getD (compute_c__GLR 0 t all_data.length).toReal) :=
  ⟨GaussianGLR_iff all_data t hthr, BernoulliGLR_iff all_data t hthr⟩

/-- C5 (counterexample): on the stream `[0, sqrt(8 log 2)]` at `t = 2` with the
default threshold, the unique split `s = 0` makes the Gaussian GLR statistic
exactly equal to the threshold `32/3 * log 2`; the detector (which tests `>=`)
returns true, yet no split strictly exceeds the threshold, refuting the claim
as stated. -/
theorem C5_counterexample :
    GaussianGLR [0, Real.sqrt (8 * Real.log 2)] 2 none
    ∧ ¬ (∃ s : ℕ, s + 1 < 2 ∧
        ((s : ℝ) + 1) * ((2 : ℝ) - (s : ℝ)) / ((2 : ℝ) + 1) *
            klGauss (listMean ((([0, Real.sqrt (8 * Real.log 2)] : List ℝ).drop (s + 1)).take
                (2 - (s + 1))))
              (listMean (([0, Real.sqrt (8 * Real.log 2)] : List ℝ).take (s + 1)))
          > (compute_c__GLR 0 2 2).toReal) := by
  have hlog2 : (0 : ℝ) ≤ 8 * Real.log 2 := by
    have := Real.log_nonneg (by norm_num : (1 : ℝ) ≤ 2)
    linarith
  have hsq : Real.sqrt (8 * Real.log 2) ^ 2 = 8 * Real.log 2 := Real.sq_sqrt hlog2
  have hthr : (compute_c__GLR 0 2 2).toReal = 32 / 3 * Real.log 2 := by
    unfold compute_c__GLR
    dsimp only
    rw [if_neg (by decide), EReal.toReal_coe,
      show ((((2 : ℕ) : ℤ) - ((0 : ℕ) : ℤ)).natAbs : ℕ) = 2 from by decide,
      show (max 1 2 : ℕ) = 2 from rfl,
      show Real.sqrt (((2 : ℕ) : ℝ) + 2) = 2 from by
        rw [show (((2 : ℕ) : ℝ)) + 2 = 2 ^ 2 from by norm_num,
          Real.sqrt_sq (by norm_num : (0 : ℝ) ≤ 2)],
      show (2 * (((2 : ℕ) : ℝ)) * 2) / (1 / (((2 : ℕ) : ℝ))) = 2 ^ (4 : ℕ) from by
        norm_num,
      Real.log_pow]
    push_cast
    ring
  have hx1 : listMean ((([0, Real.sqrt (8 * Real.log 2)] : List ℝ).drop (0 + 1)).take
      (2 - (0 + 1))) = Real.sqrt (8 * Real.log 2) := by
    rw [show (([0, Real.sqrt (8 * Real.log 2)] : List ℝ).drop (0 + 1)).take (2 - (0 + 1))
        = [Real.sqrt (8 * Real.log 2)] from rfl, listMean_singleton]
  have hx2 : listMean (([0, Real.sqrt (8 * Real.log 2)] : List ℝ).take (0 + 1)) = 0 := by
    rw [show ([0, Real.sqrt (8 * Real.log 2)] : List ℝ).take (0 + 1) = [0] from rfl,
      listMean_singleton]
  have hkl : klGauss (Real.sqrt (8 * Real.log 2)) 0 = 2 * (8 * Real.log 2) := by
    unfold klGauss
    rw [sub_zero,
      show Real.sqrt (8 * Real.log 2) ^ 2 / (2 * (1 / 4 : ℝ))
        = 2 * Real.sqrt (8 * Real.log 2) ^ 2 from by ring, hsq]
  constructor
  · apply (GaussianGLR_iff [0, Real.sqrt (8 * Real.log 2)] 2 none).mpr
    refine ⟨0, by norm_num, ?_⟩
    rw [hx1, hx2, hkl, Option.getD_none,
      show List.length [(0 : ℝ), Real.sqrt (8 * Real.log 2)] = 2 from rfl, hthr]
    apply le_of_eq
    push_cast
    ring
  · rintro ⟨s, hs1, hgt⟩
    have hs0 : s = 0 := by omega
    subst hs0
    rw [hx1, hx2, hkl, hthr] at hgt
    have heq : (((0 : ℕ) : ℝ) + 1) * ((2 : ℝ) - ((0 : ℕ) : ℝ)) / ((2 : ℝ) + 1) *
        (2 * (8 * Real.log 2)) = 32 / 3 * Real.log 2 := by
      push_cast
      ring
    rw [heq] at hgt
    exact lt_irrefl _ hgt

/-- C6 witness: the constant stream `[0, 0, 0]` at `t = 2`; the amended theorem
applies with its hypothesis discharged at this concrete input. -/
theorem C6_witness :
    (∀ k, k ≤ 2 →
        cusumG (listMean (((List.replicate 3 (0 : ℝ)).take 2).take 100))
          ((1/2 : ℚ) : ℝ) 100 ((List.replicate 3 (0 : ℝ)).take 2) k = (0, 0))
    ∧ (∀ k, k ≤ 2 →
        phtG ((1/2 : ℚ) : ℝ) ((List.replicate 3 (0 : ℝ)).take 2) k = (0, 0))
    ∧ ¬ CUSUM (List.replicate 3 (0 : ℝ)) 2 (1/2) 100 none
    ∧ (2 ≤ 3 → ¬ PHT (List.replicate 3 (0 : ℝ)) 2 (1/2) 100 none) :=
  C6_constant_stream 0 3 2 (by decide)

end DetectorClaims

